import Mathlib

/-!
# Verification of BDSpace against its specification

Shallow embedding, over the real numbers, of the BDSpace repository:
the angle-reduction and coordinate-conversion utilities
(`Coordinates/transforms` module) and the parametric-curve arc-length
machinery (`Curve/Parametric.pyx`).  Machine doubles are modelled as
real numbers; C arrays as lists of reals; in-place mutation as explicit
state passing (functions return the final contents of the mutated
buffer together with their result).
-/

namespace BDSpace

noncomputable section

open Real

/-! ## Angle reduction (`__reduce_angle`) -/

/-- First stage of `__reduce_angle`: when `|angle| > 2*pi`, subtract
`2*pi * (angle // (2*pi))` (Python floor division). -/
def reduce1 (angle : ℝ) : ℝ :=
  if |angle| > 2 * π then angle - 2 * π * (⌊angle / (2 * π)⌋ : ℤ) else angle

/-- Second stage of `__reduce_angle`: the `center` adjustment into `[-pi, pi]`. -/
def reduce2 (v : ℝ) (center : Bool) : ℝ :=
  if center then (if v < -π then v + 2 * π else if v > π then v - 2 * π else v) else v

/-- Third stage of `__reduce_angle`: the `positive` adjustment, adding `2*pi`
to negative values. -/
def reduce3 (v : ℝ) (positive : Bool) : ℝ :=
  if positive then (if v < 0 then v + 2 * π else v) else v

/-- Embedding of the scalar `__reduce_angle(angle, center, positive)`. -/
def reduce_angle (angle : ℝ) (center positive : Bool) : ℝ :=
  reduce3 (reduce2 (reduce1 angle) center) positive

/-! ## Vector utilities -/

/-- Embedding of `vector_norm`: the loop `result += v[i] * v[i]` followed by `sqrt`. -/
def vector_norm (v : List ℝ) : ℝ :=
  Real.sqrt (v.foldl (fun acc x => acc + x * x) 0)

/-- Embedding of `unit_vector`: divide componentwise by the norm, or return
the zero vector of the same size when the norm is exactly zero. -/
def unit_vector (v : List ℝ) : List ℝ :=
  if vector_norm v = 0 then List.replicate v.length 0
  else v.map (fun x => x / vector_norm v)

/-! ## Coordinate conversions (per-point) -/

/-- C `atan2(y, x)`, modelled by the argument of the complex number `x + i*y`
(range `(-pi, pi]`, `atan2 0 0 = 0`, matching the C library convention). -/
def atan2 (y x : ℝ) : ℝ :=
  Complex.arg ⟨x, y⟩

/-- Embedding of `__cartesian_to_spherical_point` on a coordinate triple. -/
def cartesian_to_spherical_point (p : ℝ × ℝ × ℝ) : ℝ × ℝ × ℝ :=
  let xy := p.1 * p.1 + p.2.1 * p.2.1
  (Real.sqrt (xy + p.2.2 * p.2.2),
   atan2 (Real.sqrt xy) p.2.2,
   reduce_angle (atan2 p.2.1 p.1) false true)

/-- Embedding of `__spherical_to_cartesian_point` on a triple (the value it
returns; the in-place reduction of `phi` is modelled separately below). -/
def spherical_to_cartesian_point (q : ℝ × ℝ × ℝ) : ℝ × ℝ × ℝ :=
  let phi := reduce_angle q.2.2 false true
  let xy := q.1 * Real.sin q.2.1
  (xy * Real.cos phi, xy * Real.sin phi, q.1 * Real.cos q.2.1)

/-- Embedding of `__cartesian_to_cylindrical_point` on a triple. -/
def cartesian_to_cylindrical_point (p : ℝ × ℝ × ℝ) : ℝ × ℝ × ℝ :=
  (Real.sqrt (p.1 * p.1 + p.2.1 * p.2.1), atan2 p.2.1 p.1, p.2.2)

/-- Embedding of `__cylindrical_to_cartesian_point` on a triple. -/
def cylindrical_to_cartesian_point (q : ℝ × ℝ × ℝ) : ℝ × ℝ × ℝ :=
  let phi := reduce_angle q.2.1 false true
  (q.1 * Real.cos phi, q.1 * Real.sin phi, q.2.2)

/-! ## In-place mutation of the angle component (state-passing model)

The Cython `__spherical_to_cartesian_point` / `__cylindrical_to_cartesian_point`
and their batched variants write the reduced angle back into the caller's
buffer before computing the result.  Each `..._state` function returns the
pair (returned array, final contents of the input buffer). -/

/-- Embedding of `__spherical_to_cartesian_point` on a length-3 buffer,
with the write `r_theta_phi[2] = __reduce_angle(r_theta_phi[2], ...)`
modelled by returning the final buffer contents. -/
def spherical_to_cartesian_point_state (rtp : List ℝ) : List ℝ × List ℝ :=
  let m := rtp.set 2 (reduce_angle (rtp.getD 2 0) false true)
  let xy := m.getD 0 0 * Real.sin (m.getD 1 0)
  ([xy * Real.cos (m.getD 2 0), xy * Real.sin (m.getD 2 0),
    m.getD 0 0 * Real.cos (m.getD 1 0)], m)

/-- Embedding of the loop body of `__spherical_to_cartesian_points` over
stride-3 blocks: returns (output array, final input buffer contents). -/
def spherical_to_cartesian_points_state : List ℝ → List ℝ × List ℝ
  | r :: theta :: phi :: rest =>
    let phir := reduce_angle phi false true
    let xy := r * Real.sin theta
    let p := spherical_to_cartesian_points_state rest
    (xy * Real.cos phir :: xy * Real.sin phir :: r * Real.cos theta :: p.1,
     r :: theta :: phir :: p.2)
  | l => (l, l)

/-- Embedding of `__cylindrical_to_cartesian_point` on a length-3 buffer,
with the write `rho_phi_z[1] = __reduce_angle(rho_phi_z[1], ...)`
modelled by returning the final buffer contents. -/
def cylindrical_to_cartesian_point_state (rpz : List ℝ) : List ℝ × List ℝ :=
  let m := rpz.set 1 (reduce_angle (rpz.getD 1 0) false true)
  ([m.getD 0 0 * Real.cos (m.getD 1 0), m.getD 0 0 * Real.sin (m.getD 1 0),
    m.getD 2 0], m)

/-- Embedding of the loop body of `__cylindrical_to_cartesian_points` over
stride-3 blocks: returns (output array, final input buffer contents). -/
def cylindrical_to_cartesian_points_state : List ℝ → List ℝ × List ℝ
  | rho :: phi :: z :: rest =>
    let phir := reduce_angle phi false true
    let p := cylindrical_to_cartesian_points_state rest
    (rho * Real.cos phir :: rho * Real.sin phir :: z :: p.1,
     rho :: phir :: z :: p.2)
  | l => (l, l)

/-- Spec-side description of the buffer effect of the spherical batched
conversion: every third component (the `phi` slot of each block) replaced
by its reduced value, the rest untouched. -/
def reducePhiSph : List ℝ → List ℝ
  | r :: theta :: phi :: rest => r :: theta :: reduce_angle phi false true :: reducePhiSph rest
  | l => l

/-- Spec-side description of the buffer effect of the cylindrical batched
conversion: the middle component (the `phi` slot) of each block replaced
by its reduced value, the rest untouched. -/
def reducePhiCyl : List ℝ → List ℝ
  | rho :: phi :: z :: rest => rho :: reduce_angle phi false true :: z :: reducePhiCyl rest
  | l => l

/-! ## Parametric curves (`Curve/Parametric.pyx`) -/

/-- Embedding of the `ParametricCurve` class: the three coordinate functions
and the three (overridable) per-point tangent functions, plus the parameter
domain.  A tangent function takes `t`, `step`, `left`, `right`. -/
structure ParametricCurve where
  x_point : ℝ → ℝ
  y_point : ℝ → ℝ
  z_point : ℝ → ℝ
  tangent_x_point : ℝ → ℝ → Bool → Bool → ℝ
  tangent_y_point : ℝ → ℝ → Bool → Bool → ℝ
  tangent_z_point : ℝ → ℝ → Bool → Bool → ℝ
  start : ℝ
  stop : ℝ

/-- The base-class finite-difference tangent (`ParametricCurve.tangent_x_point`
and friends): central difference when both `left` and `right` hold, otherwise
a one-sided difference. -/
def fdTangent (f : ℝ → ℝ) (t step : ℝ) (left right : Bool) : ℝ :=
  if left && right then (f (t + step / 2) - f (t - step / 2)) / step
  else if left then (f t - f (t - step)) / step
  else (f (t + step) - f t) / step

/-- A `ParametricCurve` that keeps the base-class finite-difference tangents
(no analytic override), as for a user-defined curve subclass. -/
def mkParametricCurve (x y z : ℝ → ℝ) (a b : ℝ) : ParametricCurve :=
  { x_point := x, y_point := y, z_point := z
    tangent_x_point := fun t s l r => fdTangent x t s l r
    tangent_y_point := fun t s l r => fdTangent y t s l r
    tangent_z_point := fun t s l r => fdTangent z t s l r
    start := a, stop := b }

/-- Embedding of the `Line` subclass: `point(t) = origin + t * (a, b, c)`,
with the tangent functions overridden by the constants `a`, `b`, `c`. -/
def Line (origin : ℝ × ℝ × ℝ) (a b c sta sto : ℝ) : ParametricCurve :=
  { x_point := fun t => origin.1 + a * t
    y_point := fun t => origin.2.1 + b * t
    z_point := fun t => origin.2.2 + c * t
    tangent_x_point := fun _ _ _ _ => a
    tangent_y_point := fun _ _ _ _ => b
    tangent_z_point := fun _ _ _ _ => c
    start := sta, stop := sto }

/-- Embedding of `ParametricCurve.generate_points` at one parameter value. -/
def point (c : ParametricCurve) (t : ℝ) : ℝ × ℝ × ℝ :=
  (c.x_point t, c.y_point t, c.z_point t)

/-- Row `i` of the matrix built by `ParametricCurve.tangent(t, step)`:
`result[0]` is a forward difference at `t[0]`, `result[s]` a backward
difference at `t[s]` (this write wins when the array has a single entry),
and every interior row is computed by the loop body
`result[i, :] = tangent_*_point(t[s], step)` — note the source evaluates
the interior rows at `t[s]`, not `t[i]`. -/
def tangentRow (c : ParametricCurve) (t : List ℝ) (step : ℝ) (i : ℕ) : ℝ × ℝ × ℝ :=
  let s := t.length - 1
  if i = s then
    (c.tangent_x_point (t.getD s 0) step true false,
     c.tangent_y_point (t.getD s 0) step true false,
     c.tangent_z_point (t.getD s 0) step true false)
  else if i = 0 then
    (c.tangent_x_point (t.getD 0 0) step false true,
     c.tangent_y_point (t.getD 0 0) step false true,
     c.tangent_z_point (t.getD 0 0) step false true)
  else
    (c.tangent_x_point (t.getD s 0) step true true,
     c.tangent_y_point (t.getD s 0) step true true,
     c.tangent_z_point (t.getD s 0) step true true)

/-- Embedding of `ParametricCurve.tangent(t, step)`: one row per sample. -/
def tangent (c : ParametricCurve) (t : List ℝ) (step : ℝ) : List (ℝ × ℝ × ℝ) :=
  (List.range t.length).map (tangentRow c t step)

/-- Euclidean norm of a coordinate triple, as computed in the source
(`sqrt(x*x + y*y + z*z)`). -/
def norm3 (p : ℝ × ℝ × ℝ) : ℝ :=
  Real.sqrt (p.1 * p.1 + p.2.1 * p.2.1 + p.2.2 * p.2.2)

/-- Chord length between the evaluated points at nodes `i` and `i+1`
(the `result_p` of the loop body of `__length_tangent_mesh`). -/
def chordLen (c : ParametricCurve) (nodes : List ℝ) (i : ℕ) : ℝ :=
  norm3 (c.x_point (nodes.getD (i + 1) 0) - c.x_point (nodes.getD i 0),
         c.y_point (nodes.getD (i + 1) 0) - c.y_point (nodes.getD i 0),
         c.z_point (nodes.getD (i + 1) 0) - c.z_point (nodes.getD i 0))

/-- Magnitude of row `i` of the tangent matrix (the `dl1` / `dl2` of
`__length_tangent_mesh`). -/
def tNorm (c : ParametricCurve) (nodes : List ℝ) (step : ℝ) (i : ℕ) : ℝ :=
  norm3 (tangentRow c nodes step i)

/-- The tangent-trapezoid length of segment `(i, i+1)` (the `result_t` of
the loop body of `__length_tangent_mesh`):
`(t[i+1] - t[i]) * (dl1 + dl2) / 2`. -/
def segTangent (c : ParametricCurve) (nodes : List ℝ) (step : ℝ) (i : ℕ) : ℝ :=
  (nodes.getD (i + 1) 0 - nodes.getD i 0) *
    (tNorm c nodes step i + tNorm c nodes step (i + 1)) / 2

/-- The `solution` array written by one pass of `__length_tangent_mesh`:
`solution[0] = 0`, `solution[i+1] = result_t` for each segment. -/
def passSolution (c : ParametricCurve) (nodes : List ℝ) (step : ℝ) : List ℝ :=
  0 :: (List.range (nodes.length - 1)).map (segTangent c nodes step)

/-- The `residual` array written by one pass of `__length_tangent_mesh`:
`residual[0] = 0`, `residual[i+1] = abs(result_t - result_p)`. -/
def passResidual (c : ParametricCurve) (nodes : List ℝ) (step : ℝ) : List ℝ :=
  0 :: (List.range (nodes.length - 1)).map
    (fun i => |segTangent c nodes step i - chordLen c nodes i|)

/-- The value returned by `__length_tangent_mesh` (the accumulator
`result_t_acc`, summed left to right). -/
def passTotal (c : ParametricCurve) (nodes : List ℝ) (step : ℝ) : ℝ :=
  ((List.range (nodes.length - 1)).map (segTangent c nodes step)).foldl (· + ·) 0

/-! ## The mesh/tree collaborator (BDMesh), modelled from the spec -/

/-- Modelled from the spec: BDMesh's `Mesh1D` / `Mesh1DUniform` (not in the
repository sources) — an ordered sequence of parameter samples
(`physical_nodes`) carrying aligned `solution` and `residual` arrays and a
`physical_step`. -/
structure Mesh where
  nodes : List ℝ
  solution : List ℝ
  residual : List ℝ
  physical_step : ℝ

/-- Modelled from the spec: construction of a uniform 1-D mesh over
`[a, b]` with a requested step (BDMesh's `Mesh1DUniform`, not in the
sources); the node count comes from the interval length over the step,
with at least the spec's minimum granularity of 3 points, and the
`solution` / `residual` arrays start out as zeros (the pass-through zero
boundary conditions). -/
def mkUniformMesh (a b step : ℝ) : Mesh :=
  let n : ℕ := max 2 (⌈(b - a) / step⌉.toNat)
  { nodes := (List.range (n + 1)).map (fun i => a + (i : ℝ) * (b - a) / (n : ℝ))
    solution := List.replicate (n + 1) 0
    residual := List.replicate (n + 1) 0
    physical_step := step }

/-- Embedding of `ParametricCurve.__length_tangent_mesh` acting on a mesh:
writes the `solution` and `residual` arrays. -/
def runPass (c : ParametricCurve) (tstep : ℝ) (m : Mesh) : Mesh :=
  { m with solution := passSolution c m.nodes tstep
           residual := passResidual c m.nodes tstep }

/-- The root mesh of `mesh_tree`: `Mesh1DUniform(start, stop,
physical_step=(stop - start) / 2)`. -/
def rootMesh (c : ParametricCurve) : Mesh :=
  mkUniformMesh c.start c.stop ((c.stop - c.start) / 2)

/-- A mesh tree as a list of levels (coarse first), each a list of meshes. -/
abbrev Tree := List (List Mesh)

/-- Modelled from the spec: the refinement-point selector collaborator
(`refinement_points`, not in the sources) — the index intervals whose
`residual` exceeds the precision threshold, one interval `(i - 1, i)` per
offending node. -/
def refinement_points (m : Mesh) (precision : ℝ) : List (ℕ × ℕ) :=
  ((List.range m.residual.length).filter
    (fun i => decide (precision < m.residual.getD i 0))).map (fun i => (i - 1, i))

/-- The refinement mesh built for one selected interval: a uniform mesh over
the physical coordinates of the two selected local nodes, with the parent's
step divided by the refinement coefficient. -/
def refineMesh (coeff : ℝ) (m : Mesh) (pr : ℕ × ℕ) : Mesh :=
  mkUniformMesh (m.nodes.getD pr.1 0) (m.nodes.getD pr.2 0) (m.physical_step / coeff)

/-- First node of a mesh. -/
def mstart (m : Mesh) : ℝ := m.nodes.headD 0

/-- Last node of a mesh. -/
def mstop (m : Mesh) : ℝ := m.nodes.getLastD 0

/-- Modelled from the spec: `TreeMesh1DUniform.remove_coarse_duplicates`
(not in the sources) — drop every mesh whose interval is fully covered by
a mesh at a strictly finer level. -/
def removeCoarseDuplicates : Tree → Tree
  | [] => []
  | lvl :: rest =>
    (lvl.filter (fun m =>
      !(rest.flatten.any (fun f => decide (mstart f ≤ mstart m ∧ mstop m ≤ mstop f)))))
      :: removeCoarseDuplicates rest

/-- One pass of the refinement loop of `mesh_tree`: run
`__length_tangent_mesh` on every mesh of the finest level, collect the
refinement intervals, append the new sub-meshes as a finer level, remove
coarse duplicates; returns the new tree and the `to_refine` count. -/
def lengthPass (c : ParametricCurve) (prec tstep : ℝ) (tr : Tree) : Tree × ℕ :=
  match tr.getLast? with
  | none => (tr, 0)
  | some lvl =>
    let processed := lvl.map (runPass c tstep)
    let refs := processed.map (fun m => (m, refinement_points m prec))
    let newMeshes := refs.flatMap (fun x => x.2.map (refineMesh 2 x.1))
    let toRefine := (refs.map (fun x => x.2.length)).sum
    let tr' := tr.dropLast ++ [processed] ++
      (if newMeshes.isEmpty then ([] : Tree) else [newMeshes])
    (removeCoarseDuplicates tr', toRefine)

/-- The `while iteration < max_iterations` loop of `mesh_tree`, with the
remaining iteration budget as fuel; returns the final tree and the number
of passes executed. -/
def meshTreeLoop (c : ParametricCurve) (prec tstep : ℝ) : ℕ → Tree → Tree × ℕ
  | 0, tr => (tr, 0)
  | fuel + 1, tr =>
    let p := lengthPass c prec tstep tr
    if p.2 = 0 then (p.1, 1)
    else
      let q := meshTreeLoop c prec tstep fuel p.1
      (q.1, q.2 + 1)

/-- The initial tree: just the root mesh. -/
def rootTree (c : ParametricCurve) : Tree :=
  [[rootMesh c]]

/-- Embedding of `ParametricCurve.mesh_tree(precision, max_iterations,
tangent_step)`, instrumented to also return the number of loop passes. -/
def mesh_tree (c : ParametricCurve) (prec : ℝ) (max_iterations : ℕ) (tstep : ℝ) :
    Tree × ℕ :=
  meshTreeLoop c prec tstep max_iterations (rootTree c)

/-- The per-node records of a mesh, `(node, solution, residual)` triples. -/
def Mesh.entries (m : Mesh) : List (ℝ × ℝ × ℝ) :=
  m.nodes.zip (m.solution.zip m.residual)

/-- Modelled from the spec: overlaying a finer mesh on a coarser one during
flattening — the finer mesh's records replace the base records inside the
finer mesh's span. -/
def overlayMesh (base finer : Mesh) : Mesh :=
  let a := mstart finer
  let b := mstop finer
  let es := base.entries.filter (fun e => decide (e.1 < a)) ++ finer.entries ++
    base.entries.filter (fun e => decide (b < e.1))
  { nodes := es.map (fun e => e.1)
    solution := es.map (fun e => e.2.1)
    residual := es.map (fun e => e.2.2)
    physical_step := finer.physical_step }

/-- Modelled from the spec: `TreeMesh1DUniform.flatten` (not in the
sources) — combine all meshes of the tree, finer levels superseding
coarser ones, into one ordered mesh. -/
def flattenTree (tr : Tree) : Mesh :=
  match tr.flatten with
  | [] => ⟨[], [], [], 0⟩
  | m :: ms => ms.foldl overlayMesh m

/-- Embedding of `ParametricCurve.length`: build the mesh tree, flatten it,
and sum the `solution` array left to right. -/
def length (c : ParametricCurve) (prec : ℝ) (max_iterations : ℕ) (tstep : ℝ) : ℝ :=
  ((flattenTree (mesh_tree c prec max_iterations tstep).1).solution).foldl (· + ·) 0

/-! ## Properties of the angle reduction -/

theorem two_pi_pos : (0 : ℝ) < 2 * π := by positivity

theorem reduce1_bounds (θ : ℝ) : -(2 * π) ≤ reduce1 θ ∧ reduce1 θ ≤ 2 * π := by
  unfold reduce1
  split_ifs with h
  · have h2 : (0 : ℝ) < 2 * π := two_pi_pos
    have hq1 : ((⌊θ / (2 * π)⌋ : ℝ)) * (2 * π) ≤ θ :=
      (le_div_iff₀ h2).mp (Int.floor_le _)
    have hq2 : θ < ((⌊θ / (2 * π)⌋ : ℝ) + 1) * (2 * π) :=
      (div_lt_iff₀ h2).mp (Int.lt_floor_add_one _)
    constructor <;> nlinarith
  · have := abs_le.mp (not_lt.mp h)
    exact ⟨this.1, this.2⟩

theorem reduce1_of_big {θ : ℝ} (h : |θ| > 2 * π) :
    0 ≤ reduce1 θ ∧ reduce1 θ < 2 * π := by
  unfold reduce1
  rw [if_pos h]
  have h2 : (0 : ℝ) < 2 * π := two_pi_pos
  have hq1 : ((⌊θ / (2 * π)⌋ : ℝ)) * (2 * π) ≤ θ :=
    (le_div_iff₀ h2).mp (Int.floor_le _)
  have hq2 : θ < ((⌊θ / (2 * π)⌋ : ℝ) + 1) * (2 * π) :=
    (div_lt_iff₀ h2).mp (Int.lt_floor_add_one _)
  constructor <;> nlinarith

theorem reduce1_of_small {θ : ℝ} (h : |θ| ≤ 2 * π) : reduce1 θ = θ := by
  unfold reduce1
  rw [if_neg (not_lt.mpr h)]

theorem reduce2_false (v : ℝ) : reduce2 v false = v := rfl

theorem reduce3_false (v : ℝ) : reduce3 v false = v := rfl

theorem reduce2_true (v : ℝ) :
    reduce2 v true = if v < -π then v + 2 * π else if v > π then v - 2 * π else v := rfl

theorem reduce3_true (v : ℝ) :
    reduce3 v true = if v < 0 then v + 2 * π else v := rfl

theorem reduce2_true_bounds {v : ℝ} (h : -(2 * π) ≤ v ∧ v ≤ 2 * π) :
    -π ≤ reduce2 v true ∧ reduce2 v true ≤ π := by
  have hpi := Real.pi_pos
  rw [reduce2_true]
  split_ifs with h1 h2 <;> constructor <;> linarith

/-- The positive-flag reduction without centering lands in `[0, 2*pi]`, and
the upper end is attained only when the first stage was the identity. -/
theorem reduce_no_center_pos_bounds (θ : ℝ) :
    0 ≤ reduce_angle θ false true ∧ reduce_angle θ false true ≤ 2 * π ∧
      (θ ≠ 2 * π → reduce_angle θ false true < 2 * π) := by
  have hpi := Real.pi_pos
  unfold reduce_angle
  rw [reduce2_false, reduce3_true]
  rcases lt_or_le (2 * π) |θ| with h | h
  · obtain ⟨h0, h1⟩ := reduce1_of_big h
    rw [if_neg (not_lt.mpr h0)]
    exact ⟨h0, le_of_lt h1, fun _ => h1⟩
  · rw [reduce1_of_small h]
    obtain ⟨hl, hr⟩ := abs_le.mp h
    split_ifs with hneg
    · refine ⟨by linarith, by linarith, fun _ => by linarith⟩
    · refine ⟨by linarith, hr, fun hne => lt_of_le_of_ne hr ?_⟩
      exact hne

/-- C6: the claim as stated is false: at `θ = 2*pi` the scalar reduction with
`center = False`, `positive = True` returns `2*pi` itself, which is not in
the half-open interval `[0, 2*pi)`. -/
theorem C6_counterexample :
    ¬ (reduce_angle (2 * π) false true < 2 * π) := by
  have hpi := Real.pi_pos
  have habs : |2 * π| = 2 * π := abs_of_nonneg (by linarith)
  have h1 : reduce1 (2 * π) = 2 * π := reduce1_of_small (le_of_eq habs)
  unfold reduce_angle
  rw [reduce2_false, h1, reduce3_true, if_neg (by linarith : ¬ (2 * π : ℝ) < 0)]
  exact lt_irrefl _

/-- C6 (amended): for every finite real angle `θ`, the scalar reduction with
`center = False`, `positive = True` returns a value in the closed interval
`[0, 2*pi]`, and the value `2*pi` is attained only at `θ = 2*pi`: for every
`θ ≠ 2*pi` the result lies in `[0, 2*pi)`. -/
theorem C6_reduce_angle_range (θ : ℝ) :
    0 ≤ reduce_angle θ false true ∧ reduce_angle θ false true ≤ 2 * π ∧
      (θ ≠ 2 * π → reduce_angle θ false true < 2 * π) :=
  reduce_no_center_pos_bounds θ

/-- C6 (amended) witness at `θ = 0`: the hypothesis `θ ≠ 2*pi` is discharged
concretely and the reduced value is strictly below `2*pi`. -/
theorem C6_reduce_angle_range_witness :
    reduce_angle 0 false true < 2 * π :=
  (C6_reduce_angle_range 0).2.2 (by positivity)

/-- With `center = false`, `positive = false`, any value already in
`[-2*pi, 2*pi]` is a fixed point of the reduction. -/
theorem reduce_fix_ff {v : ℝ} (h1 : -(2 * π) ≤ v) (h2 : v ≤ 2 * π) :
    reduce_angle v false false = v := by
  unfold reduce_angle
  rw [reduce2_false, reduce3_false, reduce1_of_small (abs_le.mpr ⟨h1, h2⟩)]

/-- With `center = false`, `positive = true`, any value already in
`[0, 2*pi]` is a fixed point of the reduction. -/
theorem reduce_fix_ft {v : ℝ} (h1 : 0 ≤ v) (h2 : v ≤ 2 * π) :
    reduce_angle v false true = v := by
  have hpi := Real.pi_pos
  unfold reduce_angle
  rw [reduce2_false, reduce1_of_small (abs_le.mpr ⟨by linarith, h2⟩), reduce3_true,
    if_neg (not_lt.mpr h1)]

/-- With `center = true`, `positive = false`, any value already in
`[-pi, pi]` is a fixed point of the reduction. -/
theorem reduce_fix_tf {v : ℝ} (h1 : -π ≤ v) (h2 : v ≤ π) :
    reduce_angle v true false = v := by
  have hpi := Real.pi_pos
  unfold reduce_angle
  rw [reduce3_false, reduce1_of_small (abs_le.mpr ⟨by linarith, by linarith⟩),
    reduce2_true, if_neg (not_lt.mpr h1), if_neg (not_lt.mpr h2)]

/-- With `center = true`, `positive = true`, any value already in
`[0, 2*pi)` is a fixed point of the reduction: values above `pi` are first
shifted down by the centering step and then shifted back up by the
positive step. -/
theorem reduce_fix_tt {v : ℝ} (h1 : 0 ≤ v) (h2 : v < 2 * π) :
    reduce_angle v true true = v := by
  have hpi := Real.pi_pos
  unfold reduce_angle
  rw [reduce1_of_small (abs_le.mpr ⟨by linarith, by linarith⟩), reduce2_true,
    if_neg (not_lt.mpr (by linarith : -π ≤ v))]
  rcases lt_or_le π v with hgt | hle
  · rw [if_pos hgt, reduce3_true, if_pos (by linarith : v - 2 * π < 0)]
    ring
  · rw [if_neg (not_lt.mpr hle), reduce3_true, if_neg (not_lt.mpr h1)]

/-- The range of the first application, `center = true`, `positive = true`:
the result lands in `[0, 2*pi)`. -/
theorem reduce_tt_range (θ : ℝ) :
    0 ≤ reduce_angle θ true true ∧ reduce_angle θ true true < 2 * π := by
  have hpi := Real.pi_pos
  obtain ⟨hc1, hc2⟩ := reduce2_true_bounds (reduce1_bounds θ)
  unfold reduce_angle
  rw [reduce3_true]
  split_ifs with h <;> constructor <;> linarith

/-- C7: the scalar angle reduction is idempotent for every fixed setting of
the `center` and `positive` flags. -/
theorem C7_reduce_angle_idempotent (θ : ℝ) (c p : Bool) :
    reduce_angle (reduce_angle θ c p) c p = reduce_angle θ c p := by
  have hpi := Real.pi_pos
  obtain ⟨hb1, hb2⟩ := reduce1_bounds θ
  cases c <;> cases p
  · -- center = false, positive = false: the first application is reduce1
    have he : reduce_angle θ false false = reduce1 θ := by
      unfold reduce_angle; rw [reduce2_false, reduce3_false]
    rw [he, reduce_fix_ff hb1 hb2]
  · -- center = false, positive = true
    obtain ⟨h0, h1, _⟩ := reduce_no_center_pos_bounds θ
    rw [reduce_fix_ft h0 h1]
  · -- center = true, positive = false
    have he : reduce_angle θ true false = reduce2 (reduce1 θ) true := by
      unfold reduce_angle; rw [reduce3_false]
    obtain ⟨hc1, hc2⟩ := reduce2_true_bounds ⟨hb1, hb2⟩
    rw [he, reduce_fix_tf hc1 hc2]
  · -- center = true, positive = true
    obtain ⟨h0, h1⟩ := reduce_tt_range θ
    rw [reduce_fix_tt h0 h1]

/-! ## Angle reduction shifts by whole turns -/

theorem reduce1_sub_int (θ : ℝ) : ∃ k : ℤ, reduce1 θ = θ + 2 * π * k := by
  unfold reduce1
  split_ifs
  · exact ⟨-⌊θ / (2 * π)⌋, by push_cast; ring⟩
  · exact ⟨0, by push_cast; ring⟩

theorem reduce2_sub_int (v : ℝ) (c : Bool) : ∃ k : ℤ, reduce2 v c = v + 2 * π * k := by
  unfold reduce2
  split_ifs
  · exact ⟨1, by push_cast; ring⟩
  · exact ⟨-1, by push_cast; ring⟩
  · exact ⟨0, by push_cast; ring⟩
  · exact ⟨0, by push_cast; ring⟩

theorem reduce3_sub_int (v : ℝ) (p : Bool) : ∃ k : ℤ, reduce3 v p = v + 2 * π * k := by
  unfold reduce3
  split_ifs
  · exact ⟨1, by push_cast; ring⟩
  · exact ⟨0, by push_cast; ring⟩
  · exact ⟨0, by push_cast; ring⟩

/-- The reduced angle differs from the input by a whole number of turns. -/
theorem reduce_angle_sub_int (θ : ℝ) (c p : Bool) :
    ∃ k : ℤ, reduce_angle θ c p = θ + 2 * π * k := by
  obtain ⟨k1, e1⟩ := reduce1_sub_int θ
  obtain ⟨k2, e2⟩ := reduce2_sub_int (reduce1 θ) c
  obtain ⟨k3, e3⟩ := reduce3_sub_int (reduce2 (reduce1 θ) c) p
  exact ⟨k1 + k2 + k3, by unfold reduce_angle; rw [e3, e2, e1]; push_cast; ring⟩

theorem cos_reduce_angle (θ : ℝ) (c p : Bool) :
    Real.cos (reduce_angle θ c p) = Real.cos θ := by
  obtain ⟨k, e⟩ := reduce_angle_sub_int θ c p
  rw [e, show θ + 2 * π * k = θ + (k : ℝ) * (2 * π) by ring,
    Real.cos_add_int_mul_two_pi]

theorem sin_reduce_angle (θ : ℝ) (c p : Bool) :
    Real.sin (reduce_angle θ c p) = Real.sin θ := by
  obtain ⟨k, e⟩ := reduce_angle_sub_int θ c p
  rw [e, show θ + 2 * π * k = θ + (k : ℝ) * (2 * π) by ring,
    Real.sin_add_int_mul_two_pi]

/-! ## atan2 facts -/

theorem abs_mk (x y : ℝ) : Complex.abs ⟨x, y⟩ = Real.sqrt (x * x + y * y) := by
  rw [Complex.abs_apply, Complex.normSq_mk]

/-- `sqrt (x*x + y*y) * cos (atan2 y x) = x`. -/
theorem sqrt_mul_cos_atan2 (y x : ℝ) :
    Real.sqrt (x * x + y * y) * Real.cos (atan2 y x) = x := by
  by_cases h : (⟨x, y⟩ : ℂ) = 0
  · have hx : x = 0 := congrArg Complex.re h
    have hy : y = 0 := congrArg Complex.im h
    simp [hx, hy]
  · have habs : Complex.abs ⟨x, y⟩ ≠ 0 := Complex.abs.ne_zero h
    rw [atan2, Complex.cos_arg h, ← abs_mk x y]
    field_simp

/-- `sqrt (x*x + y*y) * sin (atan2 y x) = y`. -/
theorem sqrt_mul_sin_atan2 (y x : ℝ) :
    Real.sqrt (x * x + y * y) * Real.sin (atan2 y x) = y := by
  by_cases h : (⟨x, y⟩ : ℂ) = 0
  · have hx : x = 0 := congrArg Complex.re h
    have hy : y = 0 := congrArg Complex.im h
    simp [hx, hy]
  · have habs : Complex.abs ⟨x, y⟩ ≠ 0 := Complex.abs.ne_zero h
    rw [atan2, Complex.sin_arg, ← abs_mk x y]
    field_simp

/-- C8: cartesian-to-spherical followed by spherical-to-cartesian is the
identity on every coordinate triple, exactly, in real arithmetic; and the
cylindrical round trip likewise. -/
theorem C8_coordinate_round_trip (p : ℝ × ℝ × ℝ) :
    spherical_to_cartesian_point (cartesian_to_spherical_point p) = p ∧
      cylindrical_to_cartesian_point (cartesian_to_cylindrical_point p) = p := by
  obtain ⟨x, y, z⟩ := p
  have hxy : (0 : ℝ) ≤ x * x + y * y :=
    add_nonneg (mul_self_nonneg x) (mul_self_nonneg y)
  have hu : Real.sqrt (x * x + y * y) * Real.sqrt (x * x + y * y) = x * x + y * y :=
    Real.mul_self_sqrt hxy
  constructor
  · -- spherical round trip
    simp only [cartesian_to_spherical_point, spherical_to_cartesian_point]
    -- the output phi is cos/sin-equivalent to atan2 y x
    rw [cos_reduce_angle, sin_reduce_angle, cos_reduce_angle, sin_reduce_angle]
    -- r * sin theta = sqrt (x*x + y*y), r * cos theta = z
    have hsin : Real.sqrt (x * x + y * y + z * z) *
        Real.sin (atan2 (Real.sqrt (x * x + y * y)) z) = Real.sqrt (x * x + y * y) := by
      have := sqrt_mul_sin_atan2 (Real.sqrt (x * x + y * y)) z
      rw [hu] at this
      rw [show x * x + y * y + z * z = z * z + (x * x + y * y) by ring]
      exact this
    have hcos : Real.sqrt (x * x + y * y + z * z) *
        Real.cos (atan2 (Real.sqrt (x * x + y * y)) z) = z := by
      have := sqrt_mul_cos_atan2 (Real.sqrt (x * x + y * y)) z
      rw [hu] at this
      rw [show x * x + y * y + z * z = z * z + (x * x + y * y) by ring]
      exact this
    refine Prod.ext ?_ (Prod.ext ?_ ?_)
    · show Real.sqrt (x * x + y * y + z * z) *
        Real.sin (atan2 (Real.sqrt (x * x + y * y)) z) * Real.cos (atan2 y x) = x
      rw [hsin, sqrt_mul_cos_atan2]
    · show Real.sqrt (x * x + y * y + z * z) *
        Real.sin (atan2 (Real.sqrt (x * x + y * y)) z) * Real.sin (atan2 y x) = y
      rw [hsin, sqrt_mul_sin_atan2]
    · exact hcos
  · -- cylindrical round trip
    simp only [cartesian_to_cylindrical_point, cylindrical_to_cartesian_point]
    rw [cos_reduce_angle, sin_reduce_angle]
    exact Prod.ext (sqrt_mul_cos_atan2 y x) (Prod.ext (sqrt_mul_sin_atan2 y x) rfl)

/-! ## Unit vector -/

theorem foldl_add_sq (v : List ℝ) (a : ℝ) :
    v.foldl (fun acc x => acc + x * x) a = a + (v.map (fun x => x * x)).sum := by
  induction v generalizing a with
  | nil => simp
  | cons h t ih => simp [ih, add_assoc]

theorem vector_norm_eq (v : List ℝ) :
    vector_norm v = Real.sqrt ((v.map (fun x => x * x)).sum) := by
  rw [vector_norm, foldl_add_sq, zero_add]

theorem sum_sq_nonneg (v : List ℝ) : (0 : ℝ) ≤ (v.map (fun x => x * x)).sum := by
  apply List.sum_nonneg
  intro a ha
  obtain ⟨x, _, rfl⟩ := List.mem_map.mp ha
  exact mul_self_nonneg x

/-- C9: normalizing a vector of nonzero norm produces a vector of norm
exactly 1, and a vector of zero norm (in particular the all-zero vector) is
sent to the zero vector of the same size, without error. -/
theorem C9_unit_vector (v : List ℝ) :
    (vector_norm v ≠ 0 → vector_norm (unit_vector v) = 1) ∧
      (vector_norm v = 0 → unit_vector v = List.replicate v.length 0) := by
  constructor
  · intro hne
    have hS : (0 : ℝ) < (v.map (fun x => x * x)).sum := by
      rcases lt_or_eq_of_le (sum_sq_nonneg v) with h | h
      · exact h
      · exact absurd (by rw [vector_norm_eq, ← h, Real.sqrt_zero]) hne
    set L := vector_norm v with hL
    have hLpos : 0 < L := by
      rw [hL, vector_norm_eq]
      exact Real.sqrt_pos.mpr hS
    have hLsq : L * L = (v.map (fun x => x * x)).sum := by
      rw [hL, vector_norm_eq]
      exact Real.mul_self_sqrt (le_of_lt hS)
    rw [unit_vector, if_neg hne, vector_norm_eq, List.map_map]
    have hmap : ((fun x => x * x) ∘ fun x => x / L) = fun x => (x * x) * (L * L)⁻¹ := by
      funext x
      field_simp
    rw [hmap, List.sum_map_mul_right, hLsq, mul_inv_cancel₀ (ne_of_gt hS), Real.sqrt_one]
  · intro hz
    rw [unit_vector, if_pos hz]

/-- C9 witness at `v = [3, 4]`: the norm is nonzero and the normalized
vector has norm 1. -/
theorem C9_unit_vector_witness : vector_norm (unit_vector [3, 4]) = 1 := by
  apply (C9_unit_vector [3, 4]).1
  rw [vector_norm_eq]
  apply Real.sqrt_ne_zero'.mpr
  norm_num

/-! ## Mutation of the input buffer by the to-cartesian conversions -/

theorem sph_points_state_snd (l : List ℝ) :
    (spherical_to_cartesian_points_state l).2 = reducePhiSph l := by
  induction l using spherical_to_cartesian_points_state.induct with
  | case1 r theta phi rest ih =>
    simp only [spherical_to_cartesian_points_state, reducePhiSph, ih]
  | case2 l h1 =>
    match l, h1 with
    | [], _ => rfl
    | [a], _ => rfl
    | [a, b], _ => rfl
    | a :: b :: d :: rest, h => exact absurd rfl (h a b d rest)

theorem cyl_points_state_snd (l : List ℝ) :
    (cylindrical_to_cartesian_points_state l).2 = reducePhiCyl l := by
  induction l using cylindrical_to_cartesian_points_state.induct with
  | case1 rho phi z rest ih =>
    simp only [cylindrical_to_cartesian_points_state, reducePhiCyl, ih]
  | case2 l h1 =>
    match l, h1 with
    | [], _ => rfl
    | [a], _ => rfl
    | [a, b], _ => rfl
    | a :: b :: d :: rest, h => exact absurd rfl (h a b d rest)

theorem reduce_angle_neg_one : reduce_angle (-1) false true = -1 + 2 * π := by
  have hpi := Real.pi_gt_three
  have h1 : reduce1 (-1) = -1 := by
    apply reduce1_of_small
    rw [abs_neg, abs_one]
    linarith
  unfold reduce_angle
  rw [reduce2_false, h1, reduce3_true, if_pos (by norm_num : (-1 : ℝ) < 0)]

/-- C10: the spherical- and cylindrical-to-cartesian conversions overwrite
the angle slot of the caller's buffer with its reduced value (`phi` is the
third slot per spherical block, the second per cylindrical block), in both
the single-point and batched variants; and the buffer is genuinely changed
for some inputs (e.g. a spherical point with `phi = -1`). -/
theorem C10_phi_mutation (l1 l2 l3 l4 : List ℝ)
    (h3 : l3.length = 3) (h4 : l4.length = 3) :
    (spherical_to_cartesian_points_state l1).2 = reducePhiSph l1 ∧
      (cylindrical_to_cartesian_points_state l2).2 = reducePhiCyl l2 ∧
      (spherical_to_cartesian_point_state l3).2 = reducePhiSph l3 ∧
      (cylindrical_to_cartesian_point_state l4).2 = reducePhiCyl l4 ∧
      (spherical_to_cartesian_point_state [1, 0, -1]).2 ≠ [1, 0, -1] := by
  refine ⟨sph_points_state_snd l1, cyl_points_state_snd l2, ?_, ?_, ?_⟩
  · obtain ⟨a, b, c, rfl⟩ := List.length_eq_three.mp h3
    simp [spherical_to_cartesian_point_state, reducePhiSph]
  · obtain ⟨a, b, c, rfl⟩ := List.length_eq_three.mp h4
    simp [cylindrical_to_cartesian_point_state, reducePhiCyl]
  · intro h
    have hset : (spherical_to_cartesian_point_state [1, 0, -1]).2 =
        [1, 0, -1 + 2 * π] := by
      simp [spherical_to_cartesian_point_state, reduce_angle_neg_one]
    rw [hset] at h
    have : (-1 : ℝ) + 2 * π = -1 := by
      have := congrArg (fun t : List ℝ => t.getD 2 0) h
      simpa using this
    have hpi := Real.pi_pos
    linarith

/-- C10 witness at concrete buffers: empty batched inputs and the
length-3 single-point buffers `[0, 0, 0]`. -/
theorem C10_phi_mutation_witness :
    (spherical_to_cartesian_points_state []).2 = reducePhiSph [] ∧
      (cylindrical_to_cartesian_points_state []).2 = reducePhiCyl [] ∧
      (spherical_to_cartesian_point_state [0, 0, 0]).2 = reducePhiSph [0, 0, 0] ∧
      (cylindrical_to_cartesian_point_state [0, 0, 0]).2 = reducePhiCyl [0, 0, 0] ∧
      (spherical_to_cartesian_point_state [1, 0, -1]).2 ≠ [1, 0, -1] :=
  C10_phi_mutation [] [] [0, 0, 0] [0, 0, 0] rfl rfl

/-! ## The batched tangent (`ParametricCurve.tangent`) -/

theorem tangent_getD (c : ParametricCurve) (t : List ℝ) (step : ℝ) (i : ℕ)
    (h : i < t.length) :
    (tangent c t step).getD i (0, 0, 0) = tangentRow c t step i := by
  rw [tangent]
  rw [List.getD_eq_getElem?_getD, List.getElem?_map, List.getElem?_range h]
  rfl

/-- C1: evaluation of `ParametricCurve.tangent` at the failing input.  For
the base curve with `x(t) = t*t` on the sample sequence `t = [0, 1, 2]`
with `step = 1`, the interior row `i = 1` of the batched tangent is the
central difference evaluated at `t[2] = 2` (value 4) — the loop body uses
`t[s]` — whereas the per-point central difference at `t[1] = 1`, which the
claim and the spec prescribe, is 2. -/
theorem C1_tangent_interior_bug :
    (tangent (mkParametricCurve (fun t => t * t) (fun _ => 0) (fun _ => 0) 0 2)
        [0, 1, 2] 1).getD 1 (0, 0, 0) = (4, 0, 0) ∧
      (mkParametricCurve (fun t => t * t) (fun _ => 0) (fun _ => 0) 0 2).tangent_x_point
        1 1 true true = 2 := by
  constructor
  · rw [tangent_getD _ _ _ _ (by norm_num)]
    show tangentRow _ [0, 1, 2] 1 1 = (4, 0, 0)
    rw [tangentRow]
    norm_num
    simp only [mkParametricCurve, fdTangent]
    norm_num
  · show fdTangent (fun t => t * t) 1 1 true true = 2
    rw [fdTangent]
    norm_num

/-! ## One evaluation pass of `__length_tangent_mesh` -/

theorem getD_map_range (f : ℕ → ℝ) (k i : ℕ) (h : i < k) :
    ((List.range k).map f).getD i 0 = f i := by
  rw [List.getD_eq_getElem?_getD, List.getElem?_map, List.getElem?_range h]
  rfl

/-- C3: after one evaluation pass of the length estimator, `solution[0]` and
`residual[0]` are 0, and for every consecutive node pair `(i, i+1)`,
`solution[i+1]` is the tangent-trapezoid segment length over
`[t_i, t_{i+1}]` and `residual[i+1]` is the absolute difference between that
segment length and the chord distance between the two evaluated points. -/
theorem C3_length_tangent_mesh_invariants (c : ParametricCurve) (tstep : ℝ) (m : Mesh) :
    (runPass c tstep m).solution.getD 0 0 = 0 ∧
      (runPass c tstep m).residual.getD 0 0 = 0 ∧
      ∀ i, i < m.nodes.length - 1 →
        (runPass c tstep m).solution.getD (i + 1) 0 = segTangent c m.nodes tstep i ∧
        (runPass c tstep m).residual.getD (i + 1) 0 =
          |segTangent c m.nodes tstep i - chordLen c m.nodes i| := by
  refine ⟨rfl, rfl, fun i hi => ⟨?_, ?_⟩⟩
  · show (passSolution c m.nodes tstep).getD (i + 1) 0 = _
    rw [passSolution, List.getD_cons_succ, getD_map_range _ _ _ hi]
  · show (passResidual c m.nodes tstep).getD (i + 1) 0 = _
    rw [passResidual, List.getD_cons_succ, getD_map_range _ _ _ hi]

/-- C3 witness on the two-node mesh `[0, 1]` of the zero curve. -/
theorem C3_length_tangent_mesh_invariants_witness :
    (runPass (mkParametricCurve (fun _ => 0) (fun _ => 0) (fun _ => 0) 0 1) 1
        ⟨[0, 1], [0, 0], [0, 0], 1⟩).solution.getD 1 0 =
      segTangent (mkParametricCurve (fun _ => 0) (fun _ => 0) (fun _ => 0) 0 1)
        (Mesh.nodes ⟨[0, 1], [0, 0], [0, 0], 1⟩) 1 0 ∧
      (runPass (mkParametricCurve (fun _ => 0) (fun _ => 0) (fun _ => 0) 0 1) 1
          ⟨[0, 1], [0, 0], [0, 0], 1⟩).residual.getD 1 0 =
        |segTangent (mkParametricCurve (fun _ => 0) (fun _ => 0) (fun _ => 0) 0 1)
            (Mesh.nodes ⟨[0, 1], [0, 0], [0, 0], 1⟩) 1 0 -
          chordLen (mkParametricCurve (fun _ => 0) (fun _ => 0) (fun _ => 0) 0 1)
            (Mesh.nodes ⟨[0, 1], [0, 0], [0, 0], 1⟩) 0| :=
  (C3_length_tangent_mesh_invariants
    (mkParametricCurve (fun _ => 0) (fun _ => 0) (fun _ => 0) 0 1) 1
    ⟨[0, 1], [0, 0], [0, 0], 1⟩).2.2 0 (by simp)

/-! ## The `Line` subclass: both estimators agree exactly -/

theorem tangentRow_line (o : ℝ × ℝ × ℝ) (a b c s1 s2 : ℝ) (nodes : List ℝ)
    (step : ℝ) (i : ℕ) :
    tangentRow (Line o a b c s1 s2) nodes step i = (a, b, c) := by
  rw [tangentRow]
  split_ifs <;> rfl

theorem tNorm_line (o : ℝ × ℝ × ℝ) (a b c s1 s2 : ℝ) (nodes : List ℝ)
    (step : ℝ) (i : ℕ) :
    tNorm (Line o a b c s1 s2) nodes step i = Real.sqrt (a * a + b * b + c * c) := by
  rw [tNorm, tangentRow_line]
  rfl

theorem segTangent_line (o : ℝ × ℝ × ℝ) (a b c s1 s2 : ℝ) (nodes : List ℝ)
    (step : ℝ) (i : ℕ) :
    segTangent (Line o a b c s1 s2) nodes step i =
      (nodes.getD (i + 1) 0 - nodes.getD i 0) * Real.sqrt (a * a + b * b + c * c) := by
  rw [segTangent, tNorm_line, tNorm_line]
  ring

theorem chordLen_line (o : ℝ × ℝ × ℝ) (a b c s1 s2 : ℝ) (nodes : List ℝ) (i : ℕ) :
    chordLen (Line o a b c s1 s2) nodes i =
      |nodes.getD (i + 1) 0 - nodes.getD i 0| * Real.sqrt (a * a + b * b + c * c) := by
  rw [chordLen, norm3]
  simp only [Line]
  set d := nodes.getD (i + 1) 0 - nodes.getD i 0 with hd
  rw [show o.1 + a * nodes.getD (i + 1) 0 - (o.1 + a * nodes.getD i 0) = a * d from by
    rw [hd]; ring]
  rw [show o.2.1 + b * nodes.getD (i + 1) 0 - (o.2.1 + b * nodes.getD i 0) = b * d from by
    rw [hd]; ring]
  rw [show o.2.2 + c * nodes.getD (i + 1) 0 - (o.2.2 + c * nodes.getD i 0) = c * d from by
    rw [hd]; ring]
  rw [show a * d * (a * d) + b * d * (b * d) + c * d * (c * d) =
      (d * d) * (a * a + b * b + c * c) from by ring]
  rw [Real.sqrt_mul (mul_self_nonneg d), Real.sqrt_mul_self_eq_abs]

/-- On an ordered mesh, every residual entry of a `Line` pass is zero. -/
theorem passResidual_line (o : ℝ × ℝ × ℝ) (a b c s1 s2 tstep : ℝ) (nodes : List ℝ)
    (hn : nodes ≠ [])
    (hmono : ∀ i, i + 1 < nodes.length → nodes.getD i 0 ≤ nodes.getD (i + 1) 0) :
    passResidual (Line o a b c s1 s2) nodes tstep =
      List.replicate nodes.length 0 := by
  have hlen : nodes.length = (nodes.length - 1) + 1 :=
    (Nat.succ_pred_eq_of_pos (List.length_pos.mpr hn)).symm
  rw [passResidual, hlen, List.replicate_succ]
  congr 1
  simp only [Nat.add_sub_cancel]
  apply List.eq_replicate_iff.mpr
  refine ⟨by simp, ?_⟩
  intro x hx
  obtain ⟨i, hi, rfl⟩ := List.mem_map.mp hx
  have hi' : i < nodes.length - 1 := List.mem_range.mp hi
  have hmon := hmono i (by omega)
  have habs : |nodes.getD (i + 1) 0 - nodes.getD i 0| =
      nodes.getD (i + 1) 0 - nodes.getD i 0 := abs_of_nonneg (sub_nonneg.mpr hmon)
  rw [segTangent_line, chordLen_line, habs, sub_self, abs_zero]

/-! ## Evaluating the root mesh and one pass of the refinement loop -/

theorem root_num (a b : ℝ) : max 2 ((⌈(b - a) / ((b - a) / 2)⌉).toNat) = 2 := by
  rcases eq_or_ne (b - a) 0 with h | h
  · rw [h]
    norm_num
  · have hx : (b - a) / ((b - a) / 2) = 2 := by
      rw [div_div_eq_mul_div, mul_comm, mul_div_assoc, div_self h, mul_one]
    rw [hx]
    norm_num

/-- The root mesh always has exactly three nodes: the two ends and the
midpoint, with zero-initialized `solution` and `residual`. -/
theorem rootMesh_eval (c : ParametricCurve) :
    (rootMesh c).nodes = [c.start, c.start + (c.stop - c.start) / 2, c.stop] ∧
      (rootMesh c).solution = List.replicate 3 0 ∧
      (rootMesh c).residual = List.replicate 3 0 := by
  unfold rootMesh mkUniformMesh
  rw [root_num]
  refine ⟨?_, rfl, rfl⟩
  show [c.start + ((0 : ℕ) : ℝ) * (c.stop - c.start) / ((2 : ℕ) : ℝ),
        c.start + ((1 : ℕ) : ℝ) * (c.stop - c.start) / ((2 : ℕ) : ℝ),
        c.start + ((2 : ℕ) : ℝ) * (c.stop - c.start) / ((2 : ℕ) : ℝ)] = _
  push_cast
  simp only [List.cons.injEq, List.nil_eq, and_true]
  refine ⟨by ring, by ring, by ring⟩

theorem getD_replicate_zero (n i : ℕ) : (List.replicate n (0 : ℝ)).getD i 0 = 0 := by
  rw [List.getD_eq_getElem?_getD, List.getElem?_replicate]
  split <;> rfl

theorem refinement_points_nil (m : Mesh) (prec : ℝ)
    (h : ∀ i, i < m.residual.length → m.residual.getD i 0 ≤ prec) :
    refinement_points m prec = [] := by
  unfold refinement_points
  rw [List.map_eq_nil_iff]
  apply List.filter_eq_nil_iff.mpr
  intro i hi
  have hle := h i (List.mem_range.mp hi)
  simp only [decide_eq_true_eq]
  exact not_lt.mpr hle

/-- One pass of the loop on a single-mesh tree with no refinement needed:
the tree keeps exactly the evaluated root mesh and `to_refine = 0`. -/
theorem lengthPass_single (c : ParametricCurve) (prec tstep : ℝ) (m : Mesh)
    (h : refinement_points (runPass c tstep m) prec = []) :
    lengthPass c prec tstep [[m]] = ([[runPass c tstep m]], 0) := by
  unfold lengthPass
  simp [h, removeCoarseDuplicates]

theorem meshTreeLoop_converged (c : ParametricCurve) (prec tstep : ℝ) (fuel : ℕ)
    (tr : Tree) (h : (lengthPass c prec tstep tr).2 = 0) :
    meshTreeLoop c prec tstep (fuel + 1) tr = ((lengthPass c prec tstep tr).1, 1) := by
  rw [meshTreeLoop]
  simp only [h, if_pos]

theorem meshTreeLoop_le (c : ParametricCurve) (prec tstep : ℝ) :
    ∀ fuel tr, (meshTreeLoop c prec tstep fuel tr).2 ≤ fuel := by
  intro fuel
  induction fuel with
  | zero => intro tr; exact le_refl 0
  | succ n ih =>
    intro tr
    rw [meshTreeLoop]
    by_cases h : (lengthPass c prec tstep tr).2 = 0
    · simp only [h, if_pos]
      exact Nat.one_le_iff_ne_zero.mpr (Nat.succ_ne_zero n)
    · simp only [h, if_neg, if_false]
      exact Nat.succ_le_succ (ih _)

theorem flattenTree_single (m : Mesh) : flattenTree [[m]] = m := rfl

/-- For a `Line` over `[0, 1]`, the pass on the root mesh produces zero
residual everywhere and therefore requests no refinement. -/
theorem line_root_pass (o : ℝ × ℝ × ℝ) (a b c tstep prec : ℝ) (hp : 0 ≤ prec) :
    lengthPass (Line o a b c 0 1) prec tstep (rootTree (Line o a b c 0 1)) =
      ([[runPass (Line o a b c 0 1) tstep (rootMesh (Line o a b c 0 1))]], 0) := by
  have hroot := rootMesh_eval (Line o a b c 0 1)
  have hn3 : (rootMesh (Line o a b c 0 1)).nodes = [0, 1 / 2, 1] := by
    rw [hroot.1]
    show ([(Line o a b c 0 1).start, _, _] : List ℝ) = _
    simp only [Line]
    norm_num
  have hres : (runPass (Line o a b c 0 1) tstep (rootMesh (Line o a b c 0 1))).residual =
      List.replicate 3 0 := by
    show passResidual _ _ _ = _
    rw [hn3]
    have := passResidual_line o a b c 0 1 tstep [0, 1 / 2, 1] (by simp)
      (by
        intro i hi
        simp only [List.length_cons, List.length_nil] at hi
        have hi2 : i ≤ 1 := by omega
        interval_cases i <;> norm_num [List.getD])
    rw [this]
    rfl
  have hnil : refinement_points (runPass (Line o a b c 0 1) tstep
      (rootMesh (Line o a b c 0 1))) prec = [] := by
    apply refinement_points_nil
    intro i hi
    rw [hres, getD_replicate_zero]
    exact hp
  exact lengthPass_single _ _ _ _ hnil

/-- C2: for a `Line` over the domain `[0, 1]`, the tangent-trapezoid and
chord estimators agree exactly on every ordered mesh (every residual is 0),
the adaptive loop of `mesh_tree` converges after a single pass with no
refinement mesh ever added, and `length` returns exactly
`sqrt(a^2 + b^2 + c^2)`. -/
theorem C2_line_exact_length (o : ℝ × ℝ × ℝ) (a b c prec tstep : ℝ) (mi : ℕ)
    (nodes : List ℝ) (hn : nodes ≠ [])
    (hmono : ∀ i, i + 1 < nodes.length → nodes.getD i 0 ≤ nodes.getD (i + 1) 0)
    (hp : 0 ≤ prec) (hmi : 1 ≤ mi) :
    passResidual (Line o a b c 0 1) nodes tstep = List.replicate nodes.length 0 ∧
      mesh_tree (Line o a b c 0 1) prec mi tstep =
        ([[runPass (Line o a b c 0 1) tstep (rootMesh (Line o a b c 0 1))]], 1) ∧
      length (Line o a b c 0 1) prec mi tstep = Real.sqrt (a * a + b * b + c * c) := by
  have hpass := line_root_pass o a b c tstep prec hp
  obtain ⟨k, rfl⟩ : ∃ k, mi = k + 1 :=
    ⟨mi - 1, (Nat.succ_pred_eq_of_pos hmi).symm⟩
  have htree : mesh_tree (Line o a b c 0 1) prec (k + 1) tstep =
      ([[runPass (Line o a b c 0 1) tstep (rootMesh (Line o a b c 0 1))]], 1) := by
    unfold mesh_tree
    rw [meshTreeLoop_converged _ _ _ _ _ (by rw [hpass])]
    rw [hpass]
  refine ⟨passResidual_line o a b c 0 1 tstep nodes hn hmono, htree, ?_⟩
  unfold length
  rw [htree]
  show (flattenTree [[_]]).solution.foldl _ 0 = _
  rw [flattenTree_single]
  show (passSolution _ _ _).foldl _ 0 = _
  have hn3 : (rootMesh (Line o a b c 0 1)).nodes = [0, 1 / 2, 1] := by
    rw [(rootMesh_eval (Line o a b c 0 1)).1]
    show ([(Line o a b c 0 1).start, _, _] : List ℝ) = _
    simp only [Line]
    norm_num
  rw [hn3, passSolution]
  rw [show List.range (([0, 1 / 2, 1] : List ℝ).length - 1) = [0, 1] from rfl]
  simp only [List.map_cons, List.map_nil]
  rw [segTangent_line, segTangent_line]
  norm_num [List.getD, List.foldl]
  ring

/-- C2 witness: `Line` with direction `(1, 2, 2)`, the ordered two-node mesh
`[0, 1]`, `precision = 1`, one iteration allowed. -/
theorem C2_line_exact_length_witness :
    passResidual (Line (0, 0, 0) 1 2 2 0 1) [0, 1] 1 =
        List.replicate ([0, 1] : List ℝ).length 0 ∧
      mesh_tree (Line (0, 0, 0) 1 2 2 0 1) 1 1 1 =
        ([[runPass (Line (0, 0, 0) 1 2 2 0 1) 1 (rootMesh (Line (0, 0, 0) 1 2 2 0 1))]], 1) ∧
      length (Line (0, 0, 0) 1 2 2 0 1) 1 1 1 = Real.sqrt (1 * 1 + 2 * 2 + 2 * 2) :=
  C2_line_exact_length (0, 0, 0) 1 2 2 1 1 1 [0, 1] (by simp)
    (by
      intro i hi
      simp only [List.length_cons, List.length_nil] at hi
      have hi0 : i = 0 := by omega
      subst hi0
      norm_num [List.getD])
    (by norm_num) (by norm_num)

/-! ## Degenerate domain and termination of the refinement loop -/

theorem segTangent_const_nodes (c : ParametricCurve) (a tstep : ℝ) (i : ℕ)
    (hi : i < 2) :
    segTangent c [a, a, a] tstep i = 0 := by
  rw [segTangent]
  have h1 : ([a, a, a] : List ℝ).getD (i + 1) 0 = a := by
    interval_cases i <;> norm_num [List.getD]
  have h0 : ([a, a, a] : List ℝ).getD i 0 = a := by
    interval_cases i <;> norm_num [List.getD]
  rw [h1, h0, sub_self, zero_mul, zero_div]

theorem chordLen_const_nodes (c : ParametricCurve) (a : ℝ) (i : ℕ) (hi : i < 2) :
    chordLen c [a, a, a] i = 0 := by
  rw [chordLen]
  have h1 : ([a, a, a] : List ℝ).getD (i + 1) 0 = a := by
    interval_cases i <;> norm_num [List.getD]
  have h0 : ([a, a, a] : List ℝ).getD i 0 = a := by
    interval_cases i <;> norm_num [List.getD]
  rw [h1, h0]
  simp [norm3]

/-- C5: for a curve whose domain is degenerate (`start = stop`), `length`
returns 0, and the refinement loop converges on its first pass with no
sub-mesh ever added to the tree (the final tree holds only the evaluated
root mesh). -/
theorem C5_degenerate_domain (c : ParametricCurve) (prec tstep : ℝ) (mi : ℕ)
    (hss : c.start = c.stop) (hp : 0 ≤ prec) (hmi : 1 ≤ mi) :
    length c prec mi tstep = 0 ∧
      mesh_tree c prec mi tstep = ([[runPass c tstep (rootMesh c)]], 1) := by
  have hn3 : (rootMesh c).nodes = [c.start, c.start, c.start] := by
    rw [(rootMesh_eval c).1, ← hss]
    simp
  have hsol : passSolution c (rootMesh c).nodes tstep = List.replicate 3 0 := by
    rw [hn3, passSolution]
    rw [show List.range (([c.start, c.start, c.start] : List ℝ).length - 1) = [0, 1]
      from rfl]
    simp only [List.map_cons, List.map_nil]
    rw [segTangent_const_nodes c _ _ 0 (by norm_num),
      segTangent_const_nodes c _ _ 1 (by norm_num)]
    rfl
  have hres : passResidual c (rootMesh c).nodes tstep = List.replicate 3 0 := by
    rw [hn3, passResidual]
    rw [show List.range (([c.start, c.start, c.start] : List ℝ).length - 1) = [0, 1]
      from rfl]
    simp only [List.map_cons, List.map_nil]
    rw [segTangent_const_nodes c _ _ 0 (by norm_num),
      segTangent_const_nodes c _ _ 1 (by norm_num),
      chordLen_const_nodes c _ 0 (by norm_num),
      chordLen_const_nodes c _ 1 (by norm_num)]
    norm_num
    rfl
  have hnil : refinement_points (runPass c tstep (rootMesh c)) prec = [] := by
    apply refinement_points_nil
    intro i hi
    show (passResidual c (rootMesh c).nodes tstep).getD i 0 ≤ prec
    rw [hres, getD_replicate_zero]
    exact hp
  obtain ⟨k, rfl⟩ : ∃ k, mi = k + 1 :=
    ⟨mi - 1, (Nat.succ_pred_eq_of_pos hmi).symm⟩
  have hpass : lengthPass c prec tstep (rootTree c) =
      ([[runPass c tstep (rootMesh c)]], 0) :=
    lengthPass_single c prec tstep (rootMesh c) hnil
  have htree : mesh_tree c prec (k + 1) tstep = ([[runPass c tstep (rootMesh c)]], 1) := by
    unfold mesh_tree
    rw [meshTreeLoop_converged _ _ _ _ _ (by rw [hpass])]
    rw [hpass]
  refine ⟨?_, htree⟩
  unfold length
  rw [htree]
  show (flattenTree [[_]]).solution.foldl _ 0 = _
  rw [flattenTree_single]
  show (passSolution c (rootMesh c).nodes tstep).foldl _ 0 = _
  rw [hsol]
  simp [List.foldl]

/-- C5 witness: a `Line` with `start = stop = 0`, `precision = 1`, one
iteration allowed. -/
theorem C5_degenerate_domain_witness :
    length (Line (0, 0, 0) 1 1 1 0 0) 1 1 1 = 0 ∧
      mesh_tree (Line (0, 0, 0) 1 1 1 0 0) 1 1 1 =
        ([[runPass (Line (0, 0, 0) 1 1 1 0 0) 1 (rootMesh (Line (0, 0, 0) 1 1 1 0 0))]], 1) :=
  C5_degenerate_domain (Line (0, 0, 0) 1 1 1 0 0) 1 1 1 rfl (by norm_num) (by norm_num)

/-- C4: the refinement loop of `mesh_tree` terminates.  The number of
executed passes never exceeds `max_iterations`; a pass whose selector
returns zero sub-intervals for every mesh at the finest level ends the loop
immediately (one further pass, whatever fuel remains); and a zero iteration
budget simply returns the root tree unchanged — no error in any case. -/
theorem C4_mesh_tree_termination (c : ParametricCurve) (prec tstep : ℝ)
    (mi fuel : ℕ) (tr : Tree) (h : (lengthPass c prec tstep tr).2 = 0) :
    (mesh_tree c prec mi tstep).2 ≤ mi ∧
      meshTreeLoop c prec tstep (fuel + 1) tr = ((lengthPass c prec tstep tr).1, 1) ∧
      (mesh_tree c prec 0 tstep).1 = rootTree c :=
  ⟨meshTreeLoop_le c prec tstep mi _,
   meshTreeLoop_converged c prec tstep fuel tr h, rfl⟩

/-- C4 witness: a `Line` over `[0, 1]` with `precision = 1`; its root pass
requests no refinements, so the loop stops after one pass. -/
theorem C4_mesh_tree_termination_witness :
    (mesh_tree (Line (0, 0, 0) 1 1 1 0 1) 1 5 1).2 ≤ 5 ∧
      meshTreeLoop (Line (0, 0, 0) 1 1 1 0 1) 1 1 (0 + 1)
          (rootTree (Line (0, 0, 0) 1 1 1 0 1)) =
        ((lengthPass (Line (0, 0, 0) 1 1 1 0 1) 1 1
            (rootTree (Line (0, 0, 0) 1 1 1 0 1))).1, 1) ∧
      (mesh_tree (Line (0, 0, 0) 1 1 1 0 1) 1 0 1).1 =
        rootTree (Line (0, 0, 0) 1 1 1 0 1) :=
  C4_mesh_tree_termination (Line (0, 0, 0) 1 1 1 0 1) 1 1 5 0
    (rootTree (Line (0, 0, 0) 1 1 1 0 1))
    (by rw [line_root_pass (0, 0, 0) 1 1 1 1 1 (by norm_num)])

end

end BDSpace
